import Mathlib

/-!
Verification of the `HussenL/webcomment` danmaku backend
(`src/backend/app.py`, `src/backend/utils.py`) against its
natural-language specification.

The Python service is shallowly embedded: module-level mutable state
becomes an explicit `AppState`, dictionaries become association lists
(or total functions with a default, for the rate-limiter tables, which
mirrors `dict.get(key, 0)`), wall-clock seconds become `Int` values that
are passed in explicitly, the nondeterministic random id sampler becomes
a function of an explicit seed stream, and the DynamoDB side effects are
recorded in an operation log.
-/

namespace Danmaku

/-- Configuration constant `MAX_IN_MEMORY = 500` from `app.py`. -/
def MAX_IN_MEMORY : Nat := 500

/-- Configuration constant `RECOVER_LIMIT = 1000` from `app.py`. -/
def RECOVER_LIMIT : Nat := 1000

/-- Configuration constant `MAX_POSTS_PER_TOKEN = 5` from `app.py`. -/
def MAX_POSTS_PER_TOKEN : Nat := 5

/-- Configuration constant `RATE_LIMIT_PERIOD = 86400` (seconds) from `app.py`. -/
def RATE_LIMIT_PERIOD : Int := 86400

/-- Rate-limiter state: the module-level dictionaries `_token_counter`
and `_token_last_reset` of `app.py`, modelled as total functions with the
defaults used by `dict.get(token, 0)` baked in. -/
structure RateState where
  counter : String → Nat
  lastReset : String → Int

/-- Initial rate-limiter state: both dictionaries empty, so every lookup
yields the Python default `0`. -/
def RateState.init : RateState := ⟨fun _ => 0, fun _ => 0⟩

/-- Embedding of `check_and_update_token_limit` (`app.py` lines 77-90).
Returns the admission verdict together with the updated tables. -/
def check_and_update_token_limit (rs : RateState) (token : String) (now : Int) :
    Bool × RateState :=
  if RATE_LIMIT_PERIOD ≤ now - rs.lastReset token then
    (true,
      { counter := fun t => if t = token then 0 else rs.counter t,
        lastReset := fun t => if t = token then now else rs.lastReset t })
  else
    let count := rs.counter token
    if MAX_POSTS_PER_TOKEN ≤ count then
      (false, rs)
    else
      (true, { rs with counter := fun t => if t = token then count + 1 else rs.counter t })

/-- Embedding of `get_token_remaining` (`app.py` lines 93-101).
Python's `max(0, MAX - count)` on ints coincides with `Nat` subtraction. -/
def get_token_remaining (rs : RateState) (token : String) (now : Int) : Nat :=
  if RATE_LIMIT_PERIOD ≤ now - rs.lastReset token then
    MAX_POSTS_PER_TOKEN
  else
    MAX_POSTS_PER_TOKEN - rs.counter token

/-- Runs a sequence of admission checks for one token at the given
times, collecting the verdicts and threading the state. -/
def runChecks (rs : RateState) (token : String) : List Int → List Bool × RateState
  | [] => ([], rs)
  | t :: ts =>
    let r := check_and_update_token_limit rs token t
    let rest := runChecks r.2 token ts
    (r.1 :: rest.1, rest.2)

theorem check_incr (rs : RateState) (token : String) (t t0 : Int)
    (hlr : rs.lastReset token = t0) (hw : t - t0 < RATE_LIMIT_PERIOD)
    (c : Nat) (hc : rs.counter token = c) (hlt : c < MAX_POSTS_PER_TOKEN) :
    (check_and_update_token_limit rs token t).1 = true ∧
    ((check_and_update_token_limit rs token t).2).counter token = c + 1 ∧
    ((check_and_update_token_limit rs token t).2).lastReset token = t0 := by
  have hcond1 : ¬ RATE_LIMIT_PERIOD ≤ t - rs.lastReset token := by rw [hlr]; omega
  have hcond2 : ¬ MAX_POSTS_PER_TOKEN ≤ rs.counter token := by omega
  simp only [check_and_update_token_limit, if_neg hcond1, if_neg hcond2]
  refine ⟨by trivial, ?_, ?_⟩
  · simp [hc]
  · exact hlr

theorem check_reject (rs : RateState) (token : String) (t t0 : Int)
    (hlr : rs.lastReset token = t0) (hw : t - t0 < RATE_LIMIT_PERIOD)
    (hc : MAX_POSTS_PER_TOKEN ≤ rs.counter token) :
    check_and_update_token_limit rs token t = (false, rs) := by
  have hcond1 : ¬ RATE_LIMIT_PERIOD ≤ t - rs.lastReset token := by rw [hlr]; omega
  simp only [check_and_update_token_limit, if_neg hcond1, if_pos hc]

/-- Claim C1: for the rate limiter with quota `Q = MAX_POSTS_PER_TOKEN = 5`
and window `W = RATE_LIMIT_PERIOD = 86400`, starting from the state a
window reset leaves behind (`count = 0`, `window_start = t0`), the first
`Q` admission checks at times within `[t0, t0 + W)` are accepted and the
`(Q+1)`-th is rejected; and from any state, the first admission check at
a time `t` with `t - window_start ≥ W` is accepted and resets the
counter to `0` and the window start to `t`. -/
theorem rateLimiter_window_spec :
    (∀ (rs : RateState) (token : String) (t0 : Int) (ts : List Int),
      rs.counter token = 0 → rs.lastReset token = t0 →
      ts.length = MAX_POSTS_PER_TOKEN + 1 →
      (∀ t ∈ ts, t0 ≤ t ∧ t - t0 < RATE_LIMIT_PERIOD) →
      (runChecks rs token ts).1 = [true, true, true, true, true, false]) ∧
    (∀ (rs : RateState) (token : String) (t : Int),
      RATE_LIMIT_PERIOD ≤ t - rs.lastReset token →
      (check_and_update_token_limit rs token t).1 = true ∧
      ((check_and_update_token_limit rs token t).2).counter token = 0 ∧
      ((check_and_update_token_limit rs token t).2).lastReset token = t) := by
  constructor
  · intro rs token t0 ts hc hlr hlen hwin
    match ts, hlen with
    | [a, b, c, d, e, f], _ =>
      have ha := hwin a (by simp)
      have hb := hwin b (by simp)
      have hc2 := hwin c (by simp)
      have hd := hwin d (by simp)
      have he := hwin e (by simp)
      have hf := hwin f (by simp)
      obtain ⟨h1v, h1c, h1r⟩ :=
        check_incr rs token a t0 hlr ha.2 0 hc (by decide)
      set rs1 := (check_and_update_token_limit rs token a).2 with hrs1
      obtain ⟨h2v, h2c, h2r⟩ :=
        check_incr rs1 token b t0 h1r hb.2 1 h1c (by decide)
      set rs2 := (check_and_update_token_limit rs1 token b).2 with hrs2
      obtain ⟨h3v, h3c, h3r⟩ :=
        check_incr rs2 token c t0 h2r hc2.2 2 h2c (by decide)
      set rs3 := (check_and_update_token_limit rs2 token c).2 with hrs3
      obtain ⟨h4v, h4c, h4r⟩ :=
        check_incr rs3 token d t0 h3r hd.2 3 h3c (by decide)
      set rs4 := (check_and_update_token_limit rs3 token d).2 with hrs4
      obtain ⟨h5v, h5c, h5r⟩ :=
        check_incr rs4 token e t0 h4r he.2 4 h4c (by decide)
      set rs5 := (check_and_update_token_limit rs4 token e).2 with hrs5
      have h6 := check_reject rs5 token f t0 h5r hf.2 (by rw [h5c]; decide)
      simp only [runChecks, h1v, h2v, h3v, h4v, h5v, h6]
  · intro rs token t h
    unfold check_and_update_token_limit
    rw [if_pos h]
    refine ⟨rfl, ?_, ?_⟩ <;> simp

/-- Witness for claim C1 at a concrete token, window start and check
times. -/
theorem rateLimiter_window_spec_witness :
    (runChecks RateState.init "tok" [0, 1, 2, 3, 4, 5]).1 =
      [true, true, true, true, true, false] ∧
    (check_and_update_token_limit RateState.init "tok" 86400).1 = true :=
  ⟨rateLimiter_window_spec.1 RateState.init "tok" 0 [0, 1, 2, 3, 4, 5]
      rfl rfl (by decide) (by decide),
    (rateLimiter_window_spec.2 RateState.init "tok" 86400 (by decide)).1⟩

/-- A stored danmaku message: the dictionaries
`{"id": ..., "content": ..., "ts": ...}` built by `post_message` and by
the recovery loop. -/
structure Message where
  id : String
  content : String
  ts : Int
deriving DecidableEq

/-- Python dict lookup `d.get(k)` on an association list. -/
def dictGet {β : Type} : List (String × β) → String → Option β
  | [], _ => none
  | p :: d, k => if p.1 = k then some p.2 else dictGet d k

/-- Python membership test `k in d`. -/
def containsKey {β : Type} : List (String × β) → String → Bool
  | [], _ => false
  | p :: d, k => if p.1 = k then true else containsKey d k

/-- In-place replacement of the value stored under a present key, as in
`msg["content"] = content` for the object held by the dict: the binding
keeps its position. -/
def dictSet {β : Type} : List (String × β) → String → β → List (String × β)
  | [], _, _ => []
  | p :: d, k, v => (if p.1 = k then (p.1, v) else p) :: dictSet d k v

/-- Python assignment `d[k] = v`: overwrite in place when the key is
present (keeping its position), append otherwise. -/
def dictInsert {β : Type} (d : List (String × β)) (k : String) (v : β) :
    List (String × β) :=
  if containsKey d k then dictSet d k v else d ++ [(k, v)]

/-- Python `d.pop(k, None)`. -/
def dictRemove {β : Type} : List (String × β) → String → List (String × β)
  | [], _ => []
  | p :: d, k => if p.1 = k then dictRemove d k else p :: dictRemove d k

/-- Events carried on subscriber queues (`broadcast` payloads). -/
inductive Ev where
  | message (m : Message)
  | delete (id : String)
deriving DecidableEq

/-- One registered SSE subscriber: an element of `_subscribers` with its
bounded `asyncio.Queue`. The `sid` identifies the queue object. -/
structure Subscriber where
  sid : Nat
  cap : Nat
  queue : List Ev
deriving DecidableEq

/-- Queue capacity `maxsize=200` used by the `/events` endpoint. -/
def EVENT_QUEUE_MAX : Nat := 200

/-- The `asyncio.Queue.put_nowait` call of `broadcast`: succeeds exactly
when the queue is below capacity, else reports `QueueFull` as `none`. -/
def put_nowait (s : Subscriber) (ev : Ev) : Option Subscriber :=
  if s.queue.length < s.cap then some { s with queue := s.queue ++ [ev] } else none

/-- Embedding of `broadcast` (`app.py` lines 118-128): enqueue on every
registered queue without blocking; queues that are full are collected as
dead and discarded from the registry. -/
def broadcast (subs : List Subscriber) (ev : Ev) : List Subscriber :=
  subs.filterMap (fun s => put_nowait s ev)

/-- Publishing a sequence of events through `broadcast`. -/
def publishAll (subs : List Subscriber) (evs : List Ev) : List Subscriber :=
  evs.foldl broadcast subs

/-- Operations issued against the DynamoDB table, recorded as a log
(`ddb_put_message`, `ddb_delete_item`, `ddb_update_content`). -/
inductive DdbOp where
  | put (m : Message)
  | deleteItem (id : String)
  | updateContent (id : String) (content : String)
deriving DecidableEq

/-- The module-level mutable state of `app.py`: `_messages`, `_order`,
the rate-limiter tables, `_subscribers`, plus the log of durable-store
operations issued so far. -/
structure AppState where
  messages : List (String × Message)
  order : List String
  rate : RateState
  subs : List Subscriber
  ddbLog : List DdbOp

/-- The state at module load: every table empty. -/
def AppState.init : AppState :=
  { messages := [], order := [], rate := RateState.init, subs := [], ddbLog := [] }

/-- Python's `str.strip()`: drop leading and trailing whitespace. Spelled
out on the character list so that it evaluates by kernel reduction. -/
def pyStrip (s : String) : String :=
  ⟨((s.data.dropWhile Char.isWhitespace).reverse.dropWhile Char.isWhitespace).reverse⟩

/-- Embedding of `clean_text` (`utils.py` lines 21-23): `str.strip`. -/
def clean_text (s : String) : String := pyStrip s

/-- The id alphabet `string.ascii_letters + string.digits` (`utils.py`
line 27). -/
def ID_ALPHABET : List Char :=
  "abcdefghijklmnopqrstuvwxyzABCDEFGHIJKLMNOPQRSTUVWXYZ0123456789".data

/-- One 8-character candidate id: each `secrets.choice(alphabet)` call is
modelled by indexing the alphabet with an arbitrary seed number. -/
def mkId8 (seed : List Nat) : String :=
  ⟨(List.range 8).map (fun i => ID_ALPHABET.getD (seed.getD i 0 % ID_ALPHABET.length) 'a')⟩

/-- Embedding of `gen_id8` (`utils.py` lines 26-31): resample until the
candidate id is absent from `existing`. The unbounded sampling loop is
modelled by an explicit finite stream of seeds; `none` marks stream
exhaustion, which the real sampler rules out by construction. -/
def gen_id8 (existing : List String) : List (List Nat) → Option String
  | [] => none
  | seed :: seeds =>
    let mid := mkId8 seed
    if mid ∈ existing then gen_id8 existing seeds else some mid

/-- Character class of the regex `[A-Za-z0-9]` (`app.py` line 104). -/
def isIdChar (c : Char) : Bool := c.isAlpha || c.isDigit

/-- Fuel-indexed scanner implementing `re.findall` for the fixed-width
pattern `[A-Za-z0-9]{8}`: at each position, either match 8 id characters
and advance past them, or advance one character. -/
def scanIdsAux : Nat → List Char → List String
  | 0, _ => []
  | _, [] => []
  | fuel + 1, c :: rest =>
    let first8 := (c :: rest).take 8
    if first8.length = 8 && first8.all isIdChar then
      String.mk first8 :: scanIdsAux fuel ((c :: rest).drop 8)
    else
      scanIdsAux fuel rest

/-- Order-preserving dedup against a `seen` set, as in the loop of
`parse_delete_ids`. -/
def dedupFirst : List String → List String → List String
  | [], _ => []
  | x :: xs, seen =>
    if x ∈ seen then dedupFirst xs seen
    else x :: dedupFirst xs (x :: seen)

/-- Embedding of `parse_delete_ids` (`app.py` lines 107-115). -/
def parse_delete_ids (s : String) : List String :=
  dedupFirst (scanIdsAux s.data.length s.data) []

/-- Embedding of `_delete_local` (`app.py` lines 207-215): remove the id
from both the mapping and the order sequence when present. -/
def delete_local (st : AppState) (mid : String) : Bool × AppState :=
  if containsKey st.messages mid then
    (true, { st with messages := dictRemove st.messages mid,
                     order := st.order.erase mid })
  else
    (false, st)

/-- Embedding of `delete_message` (`app.py` lines 300-312), after
`require_auth` has succeeded: local removal, best-effort durable delete,
broadcast of the `delete` event. The returned flag is the `deleted`
field of the always-`ok` JSON response. -/
def delete_message (st : AppState) (mid : String) : Bool × AppState :=
  let r := delete_local st mid
  (r.1, { r.2 with ddbLog := r.2.ddbLog ++ [DdbOp.deleteItem mid],
                   subs := broadcast r.2.subs (Ev.delete mid) })

/-- Embedding of `admin_delete_message` (`app.py` lines 378-390), after
`require_admin`; its body repeats that of `delete_message` verbatim. -/
def admin_delete_message (st : AppState) (mid : String) : Bool × AppState :=
  delete_message st mid

/-- Strip-and-dedup preprocessing of `admin_batch_delete` (`app.py`
lines 397-403). -/
def batchClean : List String → List String → List String
  | [], _ => []
  | x :: xs, seen =>
    let x1 := pyStrip x
    if x1 ≠ "" ∧ x1 ∉ seen then x1 :: batchClean xs (x1 :: seen)
    else batchClean xs seen

/-- The per-id loop shared by the `!delete` command of `post_message`
(`app.py` lines 258-261, each iteration awaiting `delete_message`) and by
`admin_batch_delete` (`app.py` lines 405-413, whose loop body repeats
`delete_message`'s): delete locally, delete durably, broadcast. -/
def batchDeleteRun (st : AppState) : List String → List (String × Bool) × AppState
  | [] => ([], st)
  | mid :: rest =>
    let r := delete_message st mid
    let rr := batchDeleteRun r.2 rest
    ((mid, r.1) :: rr.1, rr.2)

/-- Embedding of `admin_batch_delete` (`app.py` lines 393-415), after
`require_admin`. -/
def admin_batch_delete (st : AppState) (ids : List String) :
    List (String × Bool) × AppState :=
  batchDeleteRun st (batchClean ids [])

/-- Outcome of `admin_update_message` as seen by the caller. -/
inductive UpdateOutcome where
  | ok (item : Message)
  | emptyContent
  | notFound
deriving DecidableEq

/-- Embedding of `admin_update_message` (`app.py` lines 355-375), after
`require_admin`: in-place replacement of the content field of the stored
message, durable update, re-broadcast. -/
def admin_update_message (st : AppState) (mid : String) (rawContent : String) :
    UpdateOutcome × AppState :=
  let content := clean_text rawContent
  if content = "" then (.emptyContent, st)
  else
    match dictGet st.messages mid with
    | none => (.notFound, st)
    | some msg =>
      let msg1 := { msg with content := content }
      (.ok msg1,
        { st with
            messages := dictSet st.messages mid msg1,
            ddbLog := st.ddbLog ++ [DdbOp.updateContent mid content],
            subs := broadcast st.subs (Ev.message msg1) })

/-- Outcome of `post_message` as seen by the caller. -/
inductive PostOutcome where
  | posted (item : Message) (remaining : Nat)
  | deleteCommand (ids : List String) (results : List (String × Bool))
  | rateLimited (limit : Nat) (remaining : Nat) (resetIn : Int)
  | emptyContent
  | noIdsToDelete
  | idGenFailed
deriving DecidableEq

/-- The FIFO eviction step of `post_message` (`app.py` lines 285-287):
when the order sequence has grown past `MAX_IN_MEMORY`, pop its head and
drop that id from the mapping. -/
def evictIfOver (st : AppState) : AppState :=
  if MAX_IN_MEMORY < st.order.length then
    match st.order with
    | [] => st
    | old :: rest => { st with order := rest, messages := dictRemove st.messages old }
  else st

/-- The two store-mutating assignments of `post_message` (`app.py`
lines 282-283): `_messages[mid] = msg; _order.append(mid)`, together
with the rate-table update already performed by the admission check. -/
def pushedState (st : AppState) (rst : RateState) (msg : Message) : AppState :=
  { st with rate := rst,
            messages := dictInsert st.messages msg.id msg,
            order := st.order ++ [msg.id] }

/-- The accepted-post tail of `post_message` (`app.py` lines 279-297):
store the fresh message, evict FIFO if over capacity, durable put,
broadcast, and report the remaining quota. -/
def postFinish (st : AppState) (rst : RateState) (token : String) (now : Int)
    (msg : Message) : PostOutcome × AppState :=
  let st1 := evictIfOver (pushedState st rst msg)
  (.posted msg (get_token_remaining rst token now),
    { st1 with ddbLog := st1.ddbLog ++ [DdbOp.put msg],
               subs := broadcast st1.subs (Ev.message msg) })

/-- Embedding of `post_message` (`app.py` lines 240-297), after
`require_auth`: trim the content, serve the un-throttled `!delete`
command, apply the rate limiter, and otherwise append a
freshly-identified message. -/
def post_message (st : AppState) (token : String) (rawContent : String)
    (now : Int) (nowMs : Int) (seeds : List (List Nat)) :
    PostOutcome × AppState :=
  let content := clean_text rawContent
  if content = "" then (.emptyContent, st)
  else if content.startsWith "!delete" then
    let ids := parse_delete_ids content
    if ids = [] then (.noIdsToDelete, st)
    else
      let r := batchDeleteRun st ids
      (.deleteCommand ids r.1, r.2)
  else
    let c := check_and_update_token_limit st.rate token now
    if c.1 then
      match gen_id8 (st.messages.map (·.1)) seeds with
      | none => (.idGenFailed, { st with rate := c.2 })
      | some mid =>
        postFinish st c.2 token now { id := mid, content := content, ts := nowMs }
    else
      (.rateLimited MAX_POSTS_PER_TOKEN (get_token_remaining c.2 token now)
          (RATE_LIMIT_PERIOD - (now - c.2.lastReset token)),
        { st with rate := c.2 })

/-- One `POST /messages` request: its bearer token, raw content, the two
clock readings and the id-sampler seed stream. -/
structure PostInput where
  token : String
  content : String
  now : Int
  nowMs : Int
  seeds : List (List Nat)

/-- Runs a sequence of `post_message` requests, threading the state. -/
def runPosts (st : AppState) : List PostInput → List PostOutcome × AppState
  | [] => ([], st)
  | i :: is =>
    let r := post_message st i.token i.content i.now i.nowMs i.seeds
    let rr := runPosts r.2 is
    (r.1 :: rr.1, rr.2)

/-- One durable-log record as consumed by `ddb_recover`. -/
structure DdbRecord where
  id : String
  content : String
  ts : Int
  deleted : Bool
deriving DecidableEq

/-- Stable insertion into a ts-sorted list; with `sortByTs` this models
Python's stable `items.sort(key=lambda x: int(x.get("ts", 0)))`. -/
def insertByTs (a : DdbRecord) : List DdbRecord → List DdbRecord
  | [] => [a]
  | b :: l => if a.ts < b.ts then a :: b :: l else b :: insertByTs a l

/-- Stable insertion sort by ascending timestamp. -/
def sortByTs : List DdbRecord → List DdbRecord
  | [] => []
  | a :: l => insertByTs a (sortByTs l)

/-- Embedding of `ddb_recover` (`app.py` lines 157-170): drop records
flagged `deleted`, sort the rest by `ts` ascending, and keep the last
`RECOVER_LIMIT` of them (`items[-RECOVER_LIMIT:]`). -/
def ddb_recover (log : List DdbRecord) : List DdbRecord :=
  let sorted := sortByTs (log.filter (fun x => !x.deleted))
  sorted.drop (sorted.length - RECOVER_LIMIT)

/-- One iteration of the recovery loop of `lifespan` (`app.py` lines
179-183): `_messages[mid] = msg; _order.append(mid)`. -/
def seedStep (st : AppState) (it : DdbRecord) : AppState :=
  { st with
      messages := dictInsert st.messages it.id
        { id := it.id, content := it.content, ts := it.ts },
      order := st.order ++ [it.id] }

/-- Embedding of the recovery path of `lifespan` (`app.py` lines
173-188): seed `_messages` and `_order` from the recovered records, in
recovered order, with no further truncation. -/
def lifespan_seed (log : List DdbRecord) : AppState :=
  (ddb_recover log).foldl seedStep AppState.init

/-- Queue registration of the `/events` endpoint (`app.py` lines
315-321): a fresh subscriber with a bounded queue of capacity 200. -/
def subscribe (st : AppState) (sid : Nat) : AppState :=
  { st with subs := st.subs ++ [{ sid := sid, cap := EVENT_QUEUE_MAX, queue := [] }] }

/-- Projection: the `remaining` field reported by a successful post. -/
def outcomeRemaining : PostOutcome → Option Nat
  | .posted _ r => some r
  | _ => none

/-- Projection: the id of the message stored by a successful post. -/
def outcomeId : PostOutcome → Option String
  | .posted m _ => some m.id
  | _ => none

/-- Whether a `post_message` outcome accepted and stored the message. -/
def isPosted : PostOutcome → Bool
  | .posted _ _ => true
  | _ => false

/-- The end-to-end scenario of claim C2: a freshly issued token posts
`"hi"` six times within one window at wall-clock second 1700000000 (any
realistic epoch time exceeds `RATE_LIMIT_PERIOD`, so the limiter's first
check for a fresh token takes the reset branch). -/
def c2Inputs : List PostInput :=
  (List.range 6).map (fun i =>
    { token := "tok", content := "hi", now := 1700000000, nowMs := 1, seeds := [[i]] })

/-- Claim C2 (code bug): evaluated on the code, the fresh token's first
successful post reports `remaining = 5`, not `4`, and the 6th post in
the same window is accepted with `remaining = 0` instead of being
rejected. The reset branch of `check_and_update_token_limit` admits a
request without incrementing the counter, so a fresh token gets
`MAX_POSTS_PER_TOKEN + 1 = 6` posts per window, contradicting the 429
detail text and `X-RateLimit-Limit` header which advertise 5. The ids
returned are 8-character alphanumeric strings as claimed. -/
theorem freshToken_sixth_post_accepted :
    (runPosts AppState.init c2Inputs).1.map outcomeRemaining =
      [some 5, some 4, some 3, some 2, some 1, some 0] ∧
    (runPosts AppState.init c2Inputs).1.map isPosted =
      [true, true, true, true, true, true] ∧
    ((runPosts AppState.init c2Inputs).1.filterMap outcomeId).all
      (fun s => s.length == 8 && s.data.all isIdChar) = true := by
  refine ⟨by decide, by decide, by decide⟩

/-- Key lookup after removal fails: `dictRemove` really deletes `k`. -/
theorem containsKey_dictRemove {β : Type} (d : List (String × β)) (k : String) :
    containsKey (dictRemove d k) k = false := by
  induction d with
  | nil => rfl
  | cons p d ih =>
    by_cases h : p.1 = k
    · simpa [dictRemove, h] using ih
    · simpa [dictRemove, containsKey, h] using ih

/-- Membership characterization of `containsKey`. -/
theorem containsKey_iff_mem {β : Type} (d : List (String × β)) (k : String) :
    containsKey d k = true ↔ k ∈ d.map (·.1) := by
  induction d with
  | nil => simp [containsKey]
  | cons p d ih =>
    by_cases h : p.1 = k
    · simp [containsKey, h]
    · simp only [containsKey, if_neg h, List.map_cons, List.mem_cons]
      constructor
      · intro hm
        exact Or.inr (ih.mp hm)
      · rintro (hk | hm)
        · exact absurd hk.symm h
        · exact ih.mpr hm

/-- Removing an absent key is the identity. -/
theorem dictRemove_eq_self {β : Type} (d : List (String × β)) (k : String)
    (h : containsKey d k = false) : dictRemove d k = d := by
  induction d with
  | nil => rfl
  | cons p d ih =>
    by_cases hp : p.1 = k
    · simp [containsKey, hp] at h
    · simp only [containsKey, if_neg hp] at h
      simp [dictRemove, hp, ih h]

/-- Inserting a fresh key appends the binding at the end. -/
theorem dictInsert_of_not_contains {β : Type} (d : List (String × β))
    (k : String) (v : β) (h : containsKey d k = false) :
    dictInsert d k v = d ++ [(k, v)] := by
  simp [dictInsert, h]

/-- Removing the key of the head binding, when it does not recur, drops
exactly the head. -/
theorem dictRemove_cons_head {β : Type} (d : List (String × β)) (k : String)
    (v : β) (h : containsKey d k = false) :
    dictRemove ((k, v) :: d) k = d := by
  simp [dictRemove, dictRemove_eq_self d k h]

/-- Lookup of the written key after `dictSet`. -/
theorem dictGet_dictSet_self {β : Type} (d : List (String × β)) (k : String)
    (v : β) (h : containsKey d k = true) :
    dictGet (dictSet d k v) k = some v := by
  induction d with
  | nil => simp [containsKey] at h
  | cons p d ih =>
    by_cases hp : p.1 = k
    · simp [dictGet, dictSet, hp]
    · simp only [containsKey, if_neg hp] at h
      simpa [dictGet, dictSet, hp] using ih h

/-- Lookup of any other key is unchanged by `dictSet`. -/
theorem dictGet_dictSet_ne {β : Type} (d : List (String × β)) (k k1 : String)
    (v : β) (h : k1 ≠ k) :
    dictGet (dictSet d k v) k1 = dictGet d k1 := by
  induction d with
  | nil => rfl
  | cons p d ih =>
    by_cases hp : p.1 = k
    · have : ¬ k = k1 := fun hh => h hh.symm
      simp [dictGet, dictSet, hp, this, ih]
    · simp [dictGet, dictSet, hp, ih]

/-- Negative membership characterization of `containsKey`. -/
theorem containsKey_eq_false_iff {β : Type} (d : List (String × β)) (k : String) :
    containsKey d k = false ↔ k ∉ d.map (·.1) := by
  rw [← containsKey_iff_mem]
  cases containsKey d k <;> simp

/-- A successful lookup implies key membership. -/
theorem containsKey_of_dictGet {β : Type} (d : List (String × β)) (k : String)
    (v : β) (h : dictGet d k = some v) : containsKey d k = true := by
  induction d with
  | nil => simp [dictGet] at h
  | cons p d ih =>
    by_cases hp : p.1 = k
    · simp [containsKey, hp]
    · simp only [dictGet, if_neg hp] at h
      simpa [containsKey, hp] using ih h

/-- A concrete store with one live message, used by witnesses. -/
def demoStore : AppState :=
  { AppState.init with
      messages := [("aaaa1111", { id := "aaaa1111", content := "hello", ts := 7 })],
      order := ["aaaa1111"],
      subs := [{ sid := 1, cap := 2, queue := [] }] }

/-- Claim C6: `remove` is idempotent and never an error. For a live id
the first `_delete_local` reports `existed = true` and a second one
reports `existed = false`; deleting an absent id returns
`existed = false` and leaves the state unchanged; the `delete_message`
endpoint always answers `ok` with `deleted = existed` and, for an absent
id, leaves the store untouched. -/
theorem remove_idempotent :
    ∀ (st : AppState) (mid : String),
      (containsKey st.messages mid = true →
        (delete_local st mid).1 = true ∧
        (delete_local (delete_local st mid).2 mid).1 = false) ∧
      (containsKey st.messages mid = false →
        delete_local st mid = (false, st)) ∧
      ((delete_message st mid).1 = containsKey st.messages mid) ∧
      (containsKey st.messages mid = false →
        (delete_message st mid).2.messages = st.messages ∧
        (delete_message st mid).2.order = st.order) := by
  intro st mid
  refine ⟨?_, ?_, ?_, ?_⟩
  · intro h
    constructor
    · simp [delete_local, h]
    · simp [delete_local, h, containsKey_dictRemove]
  · intro h
    simp [delete_local, h]
  · by_cases h : containsKey st.messages mid <;>
      simp [delete_message, delete_local, h]
  · intro h
    simp [delete_message, delete_local, h]

/-- Witness for claim C6 on a concrete store. -/
theorem remove_idempotent_witness :
    (delete_local demoStore "aaaa1111").1 = true ∧
    (delete_local (delete_local demoStore "aaaa1111").2 "aaaa1111").1 = false ∧
    delete_local demoStore "zzzz9999" = (false, demoStore) :=
  ⟨((remove_idempotent demoStore "aaaa1111").1 (by decide)).1,
   ((remove_idempotent demoStore "aaaa1111").1 (by decide)).2,
   (remove_idempotent demoStore "zzzz9999").2.1 (by decide)⟩

/-- Claim C7: `admin_update_message` with non-empty (trimmed) content on
a live id replaces only the content field: the reported and stored
message keep the original id and timestamp, the order position is
untouched (the whole order sequence is unchanged), and every other key
still maps to its old message; on an unknown id it returns `notFound`
and changes nothing. -/
theorem update_frame :
    ∀ (st : AppState) (mid raw : String),
      (∀ msg, clean_text raw ≠ "" → dictGet st.messages mid = some msg →
        (admin_update_message st mid raw).1 =
          UpdateOutcome.ok { id := msg.id, content := clean_text raw, ts := msg.ts } ∧
        dictGet (admin_update_message st mid raw).2.messages mid =
          some { id := msg.id, content := clean_text raw, ts := msg.ts } ∧
        (admin_update_message st mid raw).2.order = st.order ∧
        (∀ k, k ≠ mid →
          dictGet (admin_update_message st mid raw).2.messages k =
            dictGet st.messages k)) ∧
      (clean_text raw ≠ "" → dictGet st.messages mid = none →
        admin_update_message st mid raw = (UpdateOutcome.notFound, st)) := by
  intro st mid raw
  constructor
  · intro msg hne hm
    have hck : containsKey st.messages mid = true :=
      containsKey_of_dictGet st.messages mid msg hm
    refine ⟨?_, ?_, ?_, ?_⟩
    · simp [admin_update_message, if_neg hne, hm]
    · simp only [admin_update_message, if_neg hne, hm]
      simpa using dictGet_dictSet_self st.messages mid _ hck
    · simp [admin_update_message, if_neg hne, hm]
    · intro k hk
      simp only [admin_update_message, if_neg hne, hm]
      simpa using dictGet_dictSet_ne st.messages mid k _ hk
  · intro hne hm
    simp [admin_update_message, if_neg hne, hm]

/-- Witness for claim C7 on a concrete store. -/
theorem update_frame_witness :
    (admin_update_message demoStore "aaaa1111" " new ").1 =
      UpdateOutcome.ok { id := "aaaa1111", content := "new", ts := 7 } ∧
    (admin_update_message demoStore "aaaa1111" " new ").2.order = demoStore.order ∧
    admin_update_message demoStore "zzzz9999" "x" = (UpdateOutcome.notFound, demoStore) := by
  have h1 := (update_frame demoStore "aaaa1111" " new ").1
    { id := "aaaa1111", content := "hello", ts := 7 } (by decide) (by decide)
  have h2 := (update_frame demoStore "zzzz9999" "x").2 (by decide) (by decide)
  exact ⟨h1.1, h1.2.2.1, h2⟩

/-- A subscriber with room in its queue survives a `broadcast` and has
the event appended at the back of its queue. -/
theorem broadcast_mem_of_room (subs : List Subscriber) (ev : Ev)
    (s : Subscriber) (hs : s ∈ subs) (hr : s.queue.length < s.cap) :
    { s with queue := s.queue ++ [ev] } ∈ broadcast subs ev :=
  List.mem_filterMap.mpr ⟨s, hs, by simp [put_nowait, hr]⟩

/-- Every subscriber surviving a `broadcast` descends from a registered
one: `broadcast` introduces no new queue identities. -/
theorem broadcast_sid_sub (subs : List Subscriber) (ev : Ev)
    (s1 : Subscriber) (h : s1 ∈ broadcast subs ev) :
    s1.sid ∈ subs.map (·.sid) := by
  obtain ⟨a, ha, hp⟩ := List.mem_filterMap.mp h
  by_cases hr : a.queue.length < a.cap
  · rw [put_nowait, if_pos hr] at hp
    obtain rfl := Option.some_injective _ hp
    exact List.mem_map.mpr ⟨a, ha, rfl⟩
  · rw [put_nowait, if_neg hr] at hp
    cases hp

/-- Claim C8: the Broadcast Hub's backpressure policy. A subscriber
whose queue has room survives `broadcast` with the event appended; a
subscriber whose queue is full at publish time is unregistered (no
surviving subscriber carries its queue identity, assuming identities are
distinct) and, since `broadcast` never adds identities, it receives no
further events; a subscriber with room for a whole sequence of events
receives all of them in publish order. The publisher is a total
function: `put_nowait` never blocks, a full queue only makes it report
`QueueFull`. -/
theorem broadcast_backpressure :
    (∀ (subs : List Subscriber) (ev : Ev) (s : Subscriber), s ∈ subs →
      s.queue.length < s.cap →
      { s with queue := s.queue ++ [ev] } ∈ broadcast subs ev) ∧
    (∀ (subs : List Subscriber) (ev : Ev) (s : Subscriber),
      (subs.map (·.sid)).Nodup → s ∈ subs → s.cap ≤ s.queue.length →
      ∀ s1 ∈ broadcast subs ev, s1.sid ≠ s.sid) ∧
    (∀ (subs : List Subscriber) (ev : Ev) (s1 : Subscriber),
      s1 ∈ broadcast subs ev → s1.sid ∈ subs.map (·.sid)) ∧
    (∀ (evs : List Ev) (subs : List Subscriber) (s : Subscriber), s ∈ subs →
      s.queue.length + evs.length ≤ s.cap →
      { s with queue := s.queue ++ evs } ∈ publishAll subs evs) := by
  refine ⟨broadcast_mem_of_room, ?_, broadcast_sid_sub, ?_⟩
  · intro subs ev s hnd hs hfull s1 h1 heq
    obtain ⟨a, ha, hp⟩ := List.mem_filterMap.mp h1
    by_cases hr : a.queue.length < a.cap
    · rw [put_nowait, if_pos hr] at hp
      obtain rfl := Option.some_injective _ hp
      have : a = s := List.inj_on_of_nodup_map hnd ha hs heq
      subst this
      omega
    · rw [put_nowait, if_neg hr] at hp
      cases hp
  · intro evs
    induction evs with
    | nil =>
      intro subs s hs _
      simpa [publishAll] using hs
    | cons e evs ih =>
      intro subs s hs hroom
      have h1 : { s with queue := s.queue ++ [e] } ∈ broadcast subs e :=
        broadcast_mem_of_room subs e s hs (by simp at hroom; omega)
      have h2 := ih (broadcast subs e) { s with queue := s.queue ++ [e] } h1
        (by simp at hroom ⊢; omega)
      simpa [publishAll, List.append_assoc] using h2

/-- Witness for claim C8: two subscribers, the second with a full queue;
publishing keeps the first (event enqueued) and drops the second. -/
theorem broadcast_backpressure_witness :
    ({ sid := 1, cap := 2, queue := [Ev.delete "y"] } : Subscriber) ∈
      broadcast [{ sid := 1, cap := 2, queue := [] },
                 { sid := 2, cap := 1, queue := [Ev.delete "x"] }] (Ev.delete "y") ∧
    (∀ s1 ∈ broadcast [({ sid := 1, cap := 2, queue := [] } : Subscriber),
                 { sid := 2, cap := 1, queue := [Ev.delete "x"] }] (Ev.delete "y"),
      s1.sid ≠ 2) ∧
    ({ sid := 1, cap := 2, queue := [Ev.delete "y", Ev.message { id := "aaaa1111", content := "hello", ts := 7 }] } : Subscriber) ∈
      publishAll [{ sid := 1, cap := 2, queue := [] }]
        [Ev.delete "y", Ev.message { id := "aaaa1111", content := "hello", ts := 7 }] :=
  ⟨broadcast_backpressure.1 _ (Ev.delete "y") { sid := 1, cap := 2, queue := [] }
      (by decide) (by decide),
   broadcast_backpressure.2.1 _ (Ev.delete "y")
      { sid := 2, cap := 1, queue := [Ev.delete "x"] } (by decide) (by decide) (by decide),
   broadcast_backpressure.2.2.2 _ [{ sid := 1, cap := 2, queue := [] }]
      { sid := 1, cap := 2, queue := [] } (by decide) (by decide)⟩

/-- The local-removal step never touches the subscriber registry or the
durable-operation log. -/
theorem delete_local_frame (st : AppState) (mid : String) :
    (delete_local st mid).2.subs = st.subs ∧
    (delete_local st mid).2.ddbLog = st.ddbLog := by
  by_cases h : containsKey st.messages mid <;> simp [delete_local, h]

/-- The durable-delete log grows by one entry per processed id in a
batch delete run. -/
theorem batchDeleteRun_ddbLog (ids : List String) :
    ∀ st : AppState, (batchDeleteRun st ids).2.ddbLog =
      st.ddbLog ++ ids.map (fun i => DdbOp.deleteItem i) := by
  induction ids with
  | nil => intro st; simp [batchDeleteRun]
  | cons mid rest ih =>
    intro st
    have hf := delete_local_frame st mid
    simp [batchDeleteRun, ih, delete_message, hf.2, List.append_assoc]

/-- Claim C10: for every authenticated delete request — whether through
`delete_message`, `admin_delete_message` or `admin_batch_delete` — a
`delete` event carrying the id is broadcast to the registered
subscribers and a durable delete is logged, even when the id is not live
in the store (in which case the caller is told `deleted = false`), so
subscribers can observe `delete` events for ids that were never live. -/
theorem delete_always_broadcasts :
    ∀ (st : AppState) (mid : String),
      ((delete_message st mid).2.ddbLog = st.ddbLog ++ [DdbOp.deleteItem mid]) ∧
      ((delete_message st mid).2.subs = broadcast st.subs (Ev.delete mid)) ∧
      (∀ s ∈ st.subs, s.queue.length < s.cap →
        { s with queue := s.queue ++ [Ev.delete mid] } ∈ (delete_message st mid).2.subs) ∧
      (containsKey st.messages mid = false → (delete_message st mid).1 = false) ∧
      (admin_delete_message st mid = delete_message st mid) ∧
      (∀ ids : List String,
        (admin_batch_delete st ids).2.ddbLog =
          st.ddbLog ++ (batchClean ids []).map (fun i => DdbOp.deleteItem i)) := by
  intro st mid
  have hf := delete_local_frame st mid
  refine ⟨by simp [delete_message, hf.2], by simp [delete_message, hf.1], ?_, ?_, rfl, ?_⟩
  · intro s hs hr
    have : { s with queue := s.queue ++ [Ev.delete mid] } ∈ broadcast st.subs (Ev.delete mid) :=
      broadcast_mem_of_room st.subs (Ev.delete mid) s hs hr
    simpa [delete_message, hf.1] using this
  · intro h
    simp [delete_message, delete_local, h]
  · intro ids
    exact batchDeleteRun_ddbLog (batchClean ids []) st

/-- Witness for claim C10 on a concrete store and a never-live id. -/
theorem delete_always_broadcasts_witness :
    (delete_message demoStore "zzzz9999").2.ddbLog = demoStore.ddbLog ++ [DdbOp.deleteItem "zzzz9999"] ∧
    (delete_message demoStore "zzzz9999").1 = false ∧
    ({ sid := 1, cap := 2, queue := [Ev.delete "zzzz9999"] } : Subscriber) ∈
      (delete_message demoStore "zzzz9999").2.subs :=
  ⟨(delete_always_broadcasts demoStore "zzzz9999").1,
   (delete_always_broadcasts demoStore "zzzz9999").2.2.2.1 (by decide),
   (delete_always_broadcasts demoStore "zzzz9999").2.2.1
      { sid := 1, cap := 2, queue := [] } (by decide) (by decide)⟩

/-- Stable insertion produces a permutation of consing. -/
theorem insertByTs_perm (a : DdbRecord) (l : List DdbRecord) :
    List.Perm (insertByTs a l) (a :: l) := by
  induction l with
  | nil => exact List.Perm.refl _
  | cons b l ih =>
    by_cases h : a.ts < b.ts
    · rw [insertByTs, if_pos h]
    · rw [insertByTs, if_neg h]
      exact (ih.cons b).trans (List.Perm.swap a b l)

/-- The insertion sort permutes its input. -/
theorem sortByTs_perm (l : List DdbRecord) : List.Perm (sortByTs l) l := by
  induction l with
  | nil => exact List.Perm.refl _
  | cons a l ih => exact (insertByTs_perm a (sortByTs l)).trans (ih.cons a)

/-- Stable insertion preserves sortedness by ascending timestamp. -/
theorem pairwise_insertByTs (a : DdbRecord) (l : List DdbRecord)
    (h : l.Pairwise (fun x y => x.ts ≤ y.ts)) :
    (insertByTs a l).Pairwise (fun x y => x.ts ≤ y.ts) := by
  induction l with
  | nil => simp [insertByTs]
  | cons b l ih =>
    rcases List.pairwise_cons.mp h with ⟨hb, hl⟩
    by_cases hab : a.ts < b.ts
    · rw [insertByTs, if_pos hab]
      refine List.pairwise_cons.mpr ⟨?_, h⟩
      intro x hx
      rcases List.mem_cons.mp hx with rfl | hx
      · omega
      · have := hb x hx
        omega
    · rw [insertByTs, if_neg hab]
      refine List.pairwise_cons.mpr ⟨?_, ih hl⟩
      intro x hx
      rcases List.mem_cons.mp ((insertByTs_perm a l).mem_iff.mp hx) with rfl | hx3
      · omega
      · exact hb x hx3

/-- The insertion sort output is sorted by ascending timestamp. -/
theorem pairwise_sortByTs (l : List DdbRecord) :
    (sortByTs l).Pairwise (fun x y => x.ts ≤ y.ts) := by
  induction l with
  | nil => simp [sortByTs]
  | cons a l ih => exact pairwise_insertByTs a (sortByTs l) ih

/-- The recovery loop appends exactly the recovered ids to the order
sequence. -/
theorem foldl_seedStep_order (recs : List DdbRecord) :
    ∀ st : AppState, (recs.foldl seedStep st).order = st.order ++ recs.map (·.id) := by
  induction recs with
  | nil => intro st; simp
  | cons r recs ih =>
    intro st
    simp [List.foldl_cons, ih, seedStep, List.append_assoc]

/-- Specification of startup recovery, claim C9: `ddb_recover` yields a
ts-ascending list consisting of `min RECOVER_LIMIT n` of the `n`
non-removed records, every discarded record having a timestamp no larger
than every kept one, and `lifespan` seeds the order sequence with
exactly those records' ids in that order. -/
def RecoverSpec (log : List DdbRecord) : Prop :=
  (ddb_recover log).length =
    min RECOVER_LIMIT (log.filter (fun x => !x.deleted)).length ∧
  (ddb_recover log).Pairwise (fun a b => a.ts ≤ b.ts) ∧
  (∃ dropped : List DdbRecord,
    List.Perm (dropped ++ ddb_recover log) (log.filter (fun x => !x.deleted)) ∧
    ∀ a ∈ dropped, ∀ b ∈ ddb_recover log, a.ts ≤ b.ts) ∧
  (lifespan_seed log).order = (ddb_recover log).map (·.id)

/-- Claim C9: startup recovery discards removed records, sorts the rest
by timestamp ascending, seeds the store with exactly the last
`RECOVER_LIMIT = 1000` of them — those with the largest timestamps — in
ascending order; in particular 1500 non-removed records yield exactly
`min 1000 1500 = 1000` records. -/
theorem recover_spec : ∀ log : List DdbRecord, RecoverSpec log := by
  intro log
  have hperm := sortByTs_perm (log.filter (fun x => !x.deleted))
  have hlen := hperm.length_eq
  have hpw := pairwise_sortByTs (log.filter (fun x => !x.deleted))
  refine ⟨?_, ?_, ?_, ?_⟩
  · simp only [ddb_recover, List.length_drop]
    rw [hlen]
    omega
  · simp only [ddb_recover]
    exact List.Pairwise.sublist (List.drop_sublist _ _) hpw
  · refine ⟨(sortByTs (log.filter (fun x => !x.deleted))).take
      ((sortByTs (log.filter (fun x => !x.deleted))).length - RECOVER_LIMIT), ?_, ?_⟩
    · simp only [ddb_recover]
      rw [List.take_append_drop]
      exact hperm
    · intro a ha b hb
      have hpw2 : ((sortByTs (log.filter (fun x => !x.deleted))).take
          ((sortByTs (log.filter (fun x => !x.deleted))).length - RECOVER_LIMIT) ++
          (sortByTs (log.filter (fun x => !x.deleted))).drop
          ((sortByTs (log.filter (fun x => !x.deleted))).length - RECOVER_LIMIT)).Pairwise
          (fun x y => x.ts ≤ y.ts) := by
        rw [List.take_append_drop]
        exact hpw
      simp only [ddb_recover] at hb
      exact (List.pairwise_append.mp hpw2).2.2 a ha b hb
  · rw [lifespan_seed, foldl_seedStep_order]
    simp [AppState.init]

/-- A concrete recovery log for the witness of claim C9: one removed
record and two live ones listed in descending timestamp order. -/
def demoLog : List DdbRecord :=
  [{ id := "bbbb2222", content := "b", ts := 5, deleted := false },
   { id := "cccc3333", content := "c", ts := 2, deleted := true },
   { id := "dddd4444", content := "d", ts := 1, deleted := false }]

/-- Witness for claim C9 on the concrete log. -/
theorem recover_spec_witness : RecoverSpec demoLog := recover_spec demoLog

/-- A generated id is never a member of the live id set it was sampled
against: `gen_id8` resamples until the candidate is fresh. -/
theorem gen_id8_not_mem (existing : List String) :
    ∀ (seeds : List (List Nat)) (mid : String),
      gen_id8 existing seeds = some mid → mid ∉ existing := by
  intro seeds
  induction seeds with
  | nil => intro mid h; cases h
  | cons seed seeds ih =>
    intro mid h
    simp only [gen_id8] at h
    by_cases hm : mkId8 seed ∈ existing
    · rw [if_pos hm] at h
      exact ih mid h
    · rw [if_neg hm] at h
      obtain rfl : mkId8 seed = mid := Option.some_injective _ h
      exact hm

/-- Appending one fresh element preserves nodup. -/
theorem nodup_snoc {α : Type} (l : List α) (a : α) (h : l.Nodup) (ha : a ∉ l) :
    (l ++ [a]).Nodup := by
  rw [List.nodup_append]
  refine ⟨h, List.nodup_singleton a, ?_⟩
  intro x hx hxa
  rw [List.mem_singleton] at hxa
  subst hxa
  exact ha hx

/-- Retention predicate of the Message Store, claim C4: after the
messages in `τ` have been appended (in that order) the store holds
exactly the last `MAX_IN_MEMORY` of them — mapping and order sequence in
step, oldest first — and their ids are pairwise distinct. -/
def RetainsRecent (st : AppState) (τ : List Message) : Prop :=
  st.messages = (τ.drop (τ.length - MAX_IN_MEMORY)).map (fun m => (m.id, m)) ∧
  st.order = (τ.drop (τ.length - MAX_IN_MEMORY)).map (·.id) ∧
  ((τ.drop (τ.length - MAX_IN_MEMORY)).map (·.id)).Nodup

/-- When the order sequence has not outgrown capacity, eviction is the
identity. -/
theorem evictIfOver_le (st : AppState) (hlen : ¬ MAX_IN_MEMORY < st.order.length) :
    evictIfOver st = st := by
  rw [evictIfOver, if_neg hlen]

/-- When the order sequence has outgrown capacity, eviction pops its
head and drops that id from the mapping. -/
theorem evictIfOver_cons (st : AppState) (old : String) (rest : List String)
    (hord : st.order = old :: rest) (hlen : MAX_IN_MEMORY < st.order.length) :
    evictIfOver st = { st with order := rest,
                               messages := dictRemove st.messages old } := by
  obtain ⟨ms, ord, rt, sb, dl⟩ := st
  simp only at hord
  subst hord
  rw [evictIfOver, if_pos hlen]

/-- The store-mutating tail of an accepted post preserves retention:
the new message joins the window and, past capacity, exactly the oldest
entry leaves it. -/
theorem retains_postFinish (st : AppState) (τ : List Message) (rst : RateState)
    (token : String) (now : Int) (msg : Message)
    (hInv : RetainsRecent st τ) (hfresh : msg.id ∉ st.messages.map (·.1)) :
    RetainsRecent (postFinish st rst token now msg).2 (τ ++ [msg]) := by
  obtain ⟨hmsg, hord, hnd⟩ := hInv
  have hM : MAX_IN_MEMORY = 500 := rfl
  have hkeys : st.messages.map (·.1) =
      (τ.drop (τ.length - MAX_IN_MEMORY)).map (·.id) := by
    rw [hmsg]
    simp [Function.comp_def]
  have hfresh2 : msg.id ∉ (τ.drop (τ.length - MAX_IN_MEMORY)).map (·.id) := by
    rw [← hkeys]
    exact hfresh
  have hcontains : containsKey st.messages msg.id = false := by
    rw [containsKey_eq_false_iff]
    exact hfresh
  have hins : dictInsert st.messages msg.id msg = st.messages ++ [(msg.id, msg)] :=
    dictInsert_of_not_contains _ _ _ hcontains
  have hpm : (postFinish st rst token now msg).2.messages =
      (evictIfOver (pushedState st rst msg)).messages := rfl
  have hpo : (postFinish st rst token now msg).2.order =
      (evictIfOver (pushedState st rst msg)).order := rfl
  have hpushm : (pushedState st rst msg).messages = dictInsert st.messages msg.id msg := rfl
  have hpusho : (pushedState st rst msg).order = st.order ++ [msg.id] := rfl
  rcases Nat.lt_or_ge τ.length MAX_IN_MEMORY with hsmall | hbig
  · -- below capacity: no eviction
    have hk0 : τ.length - MAX_IN_MEMORY = 0 := by omega
    rw [hk0, List.drop_zero] at hmsg hord hnd hfresh2
    have hno : ¬ MAX_IN_MEMORY < (pushedState st rst msg).order.length := by
      rw [hpusho, hord]
      simp
      omega
    have hev := evictIfOver_le _ hno
    have hk1 : (τ ++ [msg]).length - MAX_IN_MEMORY = 0 := by
      simp
      omega
    refine ⟨?_, ?_, ?_⟩
    · rw [hpm, hev, hpushm, hk1, List.drop_zero, hins, hmsg]
      simp
    · rw [hpo, hev, hpusho, hk1, List.drop_zero, hord]
      simp
    · rw [hk1, List.drop_zero, List.map_append]
      exact nodup_snoc _ _ hnd hfresh2
  · -- at capacity: the oldest window entry is evicted
    have hwlen : (τ.drop (τ.length - MAX_IN_MEMORY)).length = MAX_IN_MEMORY := by
      rw [List.length_drop]
      omega
    rcases hw : τ.drop (τ.length - MAX_IN_MEMORY) with _ | ⟨h0, t⟩
    · rw [hw] at hwlen
      simp [MAX_IN_MEMORY] at hwlen
    · rw [hw] at hmsg hord hnd hfresh2 hwlen
      have hh0 : h0.id ∉ t.map (·.id) := by
        rw [List.map_cons, List.nodup_cons] at hnd
        exact hnd.1
      have hmsgne : msg.id ≠ h0.id := by
        intro he
        apply hfresh2
        rw [List.map_cons, he]
        exact List.mem_cons_self _ _
      have hmsgt : msg.id ∉ t.map (·.id) := by
        intro he
        apply hfresh2
        rw [List.map_cons]
        exact List.mem_cons_of_mem _ he
      have htnd : (t.map (·.id)).Nodup := by
        rw [List.map_cons, List.nodup_cons] at hnd
        exact hnd.2
      have hordpush : (pushedState st rst msg).order =
          h0.id :: (t.map (·.id) ++ [msg.id]) := by
        rw [hpusho, hord]
        simp
      have hmsgpush : (pushedState st rst msg).messages =
          (h0.id, h0) :: (t.map (fun m => (m.id, m)) ++ [(msg.id, msg)]) := by
        rw [hpushm, hins, hmsg]
        simp
      have hyes : MAX_IN_MEMORY < (pushedState st rst msg).order.length := by
        rw [hordpush]
        simp only [List.length_cons, List.length_append, List.length_map] at hwlen ⊢
        omega
      have hrest : containsKey
          (t.map (fun m => (m.id, m)) ++ [(msg.id, msg)]) h0.id = false := by
        rw [containsKey_eq_false_iff]
        intro hmem
        simp only [List.map_append, List.map_cons, List.map_nil, List.map_map] at hmem
        rcases List.mem_append.mp hmem with hmem | hmem
        · apply hh0
          simpa [Function.comp_def] using hmem
        · apply hmsgne
          simp at hmem
          exact hmem.symm
      have hev := evictIfOver_cons _ _ _ hordpush hyes
      have hevm : (evictIfOver (pushedState st rst msg)).messages =
          t.map (fun m => (m.id, m)) ++ [(msg.id, msg)] := by
        rw [hev]
        show dictRemove (pushedState st rst msg).messages h0.id = _
        rw [hmsgpush]
        exact dictRemove_cons_head _ _ _ hrest
      have hevo : (evictIfOver (pushedState st rst msg)).order =
          t.map (·.id) ++ [msg.id] := by
        rw [hev]
      have hwin : (τ ++ [msg]).drop ((τ ++ [msg]).length - MAX_IN_MEMORY) =
          t ++ [msg] := by
        have hlen2 : (τ ++ [msg]).length - MAX_IN_MEMORY =
            (τ.length - MAX_IN_MEMORY) + 1 := by
          simp
          omega
        rw [hlen2,
          List.drop_append_of_le_length (by omega : τ.length - MAX_IN_MEMORY + 1 ≤ τ.length)]
        have hdt : τ.drop (τ.length - MAX_IN_MEMORY + 1) = t := by
          rw [← List.tail_drop, hw, List.tail_cons]
        rw [hdt]
      refine ⟨?_, ?_, ?_⟩
      · rw [hpm, hevm, hwin]
        simp
      · rw [hpo, hevo, hwin]
        simp
      · rw [hwin, List.map_append]
        exact nodup_snoc _ _ htnd hmsgt

/-- A `post_message` call whose outcome is `posted` went through the
store-appending tail with a gen-fresh id, so it preserves retention. -/
theorem retains_post_message (st : AppState) (τ : List Message)
    (token raw : String) (now nowMs : Int) (seeds : List (List Nat))
    (m : Message) (rem : Nat) (st1 : AppState)
    (hInv : RetainsRecent st τ)
    (h : post_message st token raw now nowMs seeds = (.posted m rem, st1)) :
    RetainsRecent st1 (τ ++ [m]) := by
  simp only [post_message] at h
  by_cases h0 : clean_text raw = ""
  · rw [if_pos h0] at h
    simp at h
  rw [if_neg h0] at h
  by_cases h1 : (clean_text raw).startsWith "!delete" = true
  · rw [if_pos h1] at h
    by_cases h2 : parse_delete_ids (clean_text raw) = []
    · rw [if_pos h2] at h
      simp at h
    · rw [if_neg h2] at h
      simp at h
  rw [if_neg h1] at h
  by_cases hc : (check_and_update_token_limit st.rate token now).1 = true
  · rw [if_pos hc] at h
    cases hg : gen_id8 (st.messages.map (·.1)) seeds with
    | none =>
      rw [hg] at h
      simp at h
    | some mid =>
      rw [hg] at h
      have hfresh : mid ∉ st.messages.map (·.1) :=
        gen_id8_not_mem (st.messages.map (·.1)) seeds mid hg
      have hr := retains_postFinish st τ
        (check_and_update_token_limit st.rate token now).2 token now
        { id := mid, content := clean_text raw, ts := nowMs } hInv hfresh
      have hfst2 : PostOutcome.posted { id := mid, content := clean_text raw, ts := nowMs }
          (get_token_remaining (check_and_update_token_limit st.rate token now).2 token now) =
          PostOutcome.posted m rem := congrArg Prod.fst h
      obtain ⟨hm2, -⟩ := (PostOutcome.posted.injEq _ _ _ _).mp hfst2
      have hsnd2 : (postFinish st (check_and_update_token_limit st.rate token now).2 token now
          { id := mid, content := clean_text raw, ts := nowMs }).2 = st1 :=
        congrArg Prod.snd h
      rw [hsnd2] at hr
      rw [← hm2]
      exact hr
  · rw [if_neg hc] at h
    simp at h

/-- The messages reported stored by a sequence of post outcomes. -/
def postedMessages (outs : List PostOutcome) : List Message :=
  outs.filterMap (fun o => match o with | .posted m _ => some m | _ => none)

/-- Running any sequence of posts whose outcomes are all `posted`
extends the retention trace by exactly the reported messages. -/
theorem retains_runPosts (inputs : List PostInput) :
    ∀ (st : AppState) (τ : List Message), RetainsRecent st τ →
      (∀ o ∈ (runPosts st inputs).1, isPosted o = true) →
      RetainsRecent (runPosts st inputs).2
        (τ ++ postedMessages (runPosts st inputs).1) := by
  induction inputs with
  | nil =>
    intro st τ h _
    simpa [runPosts, postedMessages] using h
  | cons i inputs ih =>
    intro st τ hInv hall
    rcases ho : post_message st i.token i.content i.now i.nowMs i.seeds with ⟨o, stx⟩
    have hrun1 : (runPosts st (i :: inputs)).1 = o :: (runPosts stx inputs).1 := by
      simp [runPosts, ho]
    have hrun2 : (runPosts st (i :: inputs)).2 = (runPosts stx inputs).2 := by
      simp [runPosts, ho]
    have h1 : isPosted o = true := by
      apply hall
      rw [hrun1]
      exact List.mem_cons_self _ _
    cases o with
    | posted m rem =>
      have hstep := retains_post_message st τ i.token i.content i.now i.nowMs
        i.seeds m rem stx hInv ho
      have hrest : ∀ o1 ∈ (runPosts stx inputs).1, isPosted o1 = true := by
        intro o1 ho1
        apply hall
        rw [hrun1]
        exact List.mem_cons_of_mem _ ho1
      have := ih stx (τ ++ [m]) hstep hrest
      rw [hrun1, hrun2]
      simpa [postedMessages, List.append_assoc] using this
    | deleteCommand ids results => simp [isPosted] at h1
    | rateLimited a b c => simp [isPosted] at h1
    | emptyContent => simp [isPosted] at h1
    | noIdsToDelete => simp [isPosted] at h1
    | idGenFailed => simp [isPosted] at h1

/-- Claim C4: starting from the empty store, any sequence of accepted
posts leaves the store holding exactly the `MAX_IN_MEMORY = 500` most
recently appended live messages, in append order oldest-first with
mapping and order sequence in step (`RetainsRecent`); and whenever an
append has pushed the order sequence past capacity, eviction removes
exactly the single oldest entry. -/
theorem append_fifo_retention :
    (∀ inputs : List PostInput,
      (∀ o ∈ (runPosts AppState.init inputs).1, isPosted o = true) →
      RetainsRecent (runPosts AppState.init inputs).2
        (postedMessages (runPosts AppState.init inputs).1)) ∧
    (∀ (st : AppState) (old : String) (rest : List String),
      st.order = old :: rest → MAX_IN_MEMORY < st.order.length →
      (evictIfOver st).order = rest ∧
      (evictIfOver st).messages = dictRemove st.messages old) := by
  constructor
  · intro inputs hall
    have h0 : RetainsRecent AppState.init [] := ⟨rfl, rfl, List.nodup_nil⟩
    simpa using retains_runPosts inputs AppState.init [] h0 hall
  · intro st old rest hord hlen
    rw [evictIfOver_cons st old rest hord hlen]
    exact ⟨rfl, rfl⟩

/-- Concrete inputs for the witness of claim C4: two accepted posts. -/
def c4Inputs : List PostInput :=
  [{ token := "u1", content := "a", now := 0, nowMs := 10, seeds := [[0]] },
   { token := "u1", content := "b", now := 0, nowMs := 11, seeds := [[1]] }]

/-- A concrete over-capacity state for the witness of claim C4. -/
def c4EvictState : AppState :=
  { AppState.init with order := List.replicate 501 "aaaa1111" }

set_option maxRecDepth 8000 in
/-- Witness for claim C4 at concrete inputs and a concrete over-capacity
state. -/
theorem append_fifo_retention_witness :
    RetainsRecent (runPosts AppState.init c4Inputs).2
      (postedMessages (runPosts AppState.init c4Inputs).1) ∧
    ((evictIfOver c4EvictState).order = List.replicate 500 "aaaa1111" ∧
      (evictIfOver c4EvictState).messages = dictRemove c4EvictState.messages "aaaa1111") :=
  ⟨append_fifo_retention.1 c4Inputs (by decide),
   append_fifo_retention.2 c4EvictState "aaaa1111" (List.replicate 500 "aaaa1111")
      rfl (by decide)⟩

/-- Store well-formedness: the order sequence lists exactly the mapping
keys (1:1 correspondence), the ids are pairwise distinct, and the length
is within capacity. -/
def UInv (st : AppState) : Prop :=
  st.order = st.messages.map (·.1) ∧ st.order.Nodup ∧
  st.order.length ≤ MAX_IN_MEMORY

/-- Keys are untouched by an in-place value replacement. -/
theorem map_fst_dictSet {β : Type} (d : List (String × β)) (k : String) (v : β) :
    (dictSet d k v).map (·.1) = d.map (·.1) := by
  induction d with
  | nil => rfl
  | cons p d ih =>
    by_cases hp : p.1 = k
    · simp [dictSet, hp, ih]
    · simp [dictSet, hp, ih]

/-- Erasing a key from a nodup key list matches removing its binding. -/
theorem erase_map_fst {β : Type} (d : List (String × β)) (k : String)
    (h : (d.map (·.1)).Nodup) :
    (d.map (·.1)).erase k = (dictRemove d k).map (·.1) := by
  induction d with
  | nil => rfl
  | cons p d ih =>
    rw [List.map_cons, List.nodup_cons] at h
    by_cases hp : p.1 = k
    · subst hp
      rw [List.map_cons, List.erase_cons_head]
      rw [dictRemove, if_pos rfl,
        dictRemove_eq_self d p.1 ((containsKey_eq_false_iff d p.1).mpr h.1)]
    · rw [List.map_cons, List.erase_cons_tail, dictRemove, if_neg hp,
        List.map_cons, ih h.2]
      simp [hp]

/-- Local deletion preserves store well-formedness. -/
theorem uinv_delete_local (st : AppState) (mid : String) (h : UInv st) :
    UInv (delete_local st mid).2 := by
  obtain ⟨hord, hnd, hlen⟩ := h
  by_cases hc : containsKey st.messages mid
  · simp only [delete_local, if_pos hc]
    refine ⟨?_, ?_, ?_⟩
    · show st.order.erase mid = (dictRemove st.messages mid).map (·.1)
      rw [hord]
      exact erase_map_fst st.messages mid (hord ▸ hnd)
    · exact List.Nodup.sublist (List.erase_sublist _ _) hnd
    · exact le_trans (List.Sublist.length_le (List.erase_sublist _ _)) hlen
  · simp only [delete_local, if_neg hc]
    exact ⟨hord, hnd, hlen⟩

/-- The delete endpoint preserves store well-formedness. -/
theorem uinv_delete_message (st : AppState) (mid : String) (h : UInv st) :
    UInv (delete_message st mid).2 := by
  have h2 := uinv_delete_local st mid h
  exact ⟨h2.1, h2.2.1, h2.2.2⟩

/-- A batch of deletions preserves store well-formedness. -/
theorem uinv_batchDeleteRun (ids : List String) :
    ∀ st : AppState, UInv st → UInv (batchDeleteRun st ids).2 := by
  induction ids with
  | nil => intro st h; exact h
  | cons mid rest ih =>
    intro st h
    exact ih _ (uinv_delete_message st mid h)

/-- The accepted-post tail preserves store well-formedness. -/
theorem uinv_postFinish (st : AppState) (rst : RateState) (token : String)
    (now : Int) (msg : Message) (h : UInv st)
    (hfresh : msg.id ∉ st.messages.map (·.1)) :
    UInv (postFinish st rst token now msg).2 := by
  obtain ⟨hord, hnd, hlen⟩ := h
  have hM : MAX_IN_MEMORY = 500 := rfl
  have hcontains : containsKey st.messages msg.id = false :=
    (containsKey_eq_false_iff st.messages msg.id).mpr hfresh
  have hins := dictInsert_of_not_contains st.messages msg.id msg hcontains
  have hpushm : (pushedState st rst msg).messages = st.messages ++ [(msg.id, msg)] := by
    show dictInsert st.messages msg.id msg = _
    exact hins
  have hpusho : (pushedState st rst msg).order = st.order ++ [msg.id] := rfl
  have hpm : (postFinish st rst token now msg).2.messages =
      (evictIfOver (pushedState st rst msg)).messages := rfl
  have hpo : (postFinish st rst token now msg).2.order =
      (evictIfOver (pushedState st rst msg)).order := rfl
  have hkeys : (pushedState st rst msg).order =
      (pushedState st rst msg).messages.map (·.1) := by
    rw [hpusho, hpushm, List.map_append, hord]
    rfl
  have hndp : (pushedState st rst msg).order.Nodup := by
    rw [hpusho]
    exact nodup_snoc _ _ hnd (hord ▸ hfresh)
  by_cases hover : MAX_IN_MEMORY < (pushedState st rst msg).order.length
  · -- eviction occurs
    cases pm : (pushedState st rst msg).messages with
    | nil =>
      rw [pm] at hkeys
      rw [hkeys] at hover
      simp [hM] at hover
    | cons q dm =>
      have hord2 : (pushedState st rst msg).order = q.1 :: dm.map (·.1) := by
        rw [hkeys, pm, List.map_cons]
      have hq : q.1 ∉ dm.map (·.1) := by
        have := hndp
        rw [hord2, List.nodup_cons] at this
        exact this.1
      have hev := evictIfOver_cons _ _ _ hord2 hover
      have hevm : (evictIfOver (pushedState st rst msg)).messages = dm := by
        rw [hev]
        show dictRemove (pushedState st rst msg).messages q.1 = dm
        rw [pm, dictRemove, if_pos rfl,
          dictRemove_eq_self dm q.1 ((containsKey_eq_false_iff dm q.1).mpr hq)]
      have hevo : (evictIfOver (pushedState st rst msg)).order = dm.map (·.1) := by
        rw [hev]
      have hlen2 : (pushedState st rst msg).order.length = st.order.length + 1 := by
        rw [hpusho]
        simp
      refine ⟨?_, ?_, ?_⟩
      · rw [hpo, hpm, hevo, hevm]
      · rw [hpo, hevo]
        have := hndp
        rw [hord2, List.nodup_cons] at this
        exact this.2
      · rw [hpo, hevo]
        have hlen3 : (q.1 :: dm.map (·.1)).length =
            (pushedState st rst msg).order.length := by rw [hord2]
        simp at hlen3
        simp
        omega
  · -- no eviction
    have hev := evictIfOver_le _ hover
    refine ⟨?_, ?_, ?_⟩
    · rw [hpo, hpm, hev, hkeys]
    · rw [hpo, hev]
      exact hndp
    · rw [hpo, hev]
      omega

/-- The post endpoint preserves store well-formedness on every branch. -/
theorem uinv_post_message (st : AppState) (token raw : String)
    (now nowMs : Int) (seeds : List (List Nat)) (h : UInv st) :
    UInv (post_message st token raw now nowMs seeds).2 := by
  simp only [post_message]
  by_cases h0 : clean_text raw = ""
  · rw [if_pos h0]
    exact h
  rw [if_neg h0]
  by_cases h1 : (clean_text raw).startsWith "!delete" = true
  · rw [if_pos h1]
    by_cases h2 : parse_delete_ids (clean_text raw) = []
    · rw [if_pos h2]
      exact h
    · rw [if_neg h2]
      exact uinv_batchDeleteRun _ st h
  rw [if_neg h1]
  by_cases hc : (check_and_update_token_limit st.rate token now).1 = true
  · rw [if_pos hc]
    cases hg : gen_id8 (st.messages.map (·.1)) seeds with
    | none => exact ⟨h.1, h.2.1, h.2.2⟩
    | some mid =>
      exact uinv_postFinish st _ token now _ h
        (gen_id8_not_mem (st.messages.map (·.1)) seeds mid hg)
  · rw [if_neg hc]
    exact ⟨h.1, h.2.1, h.2.2⟩

/-- The privileged update preserves store well-formedness. -/
theorem uinv_admin_update (st : AppState) (mid raw : String) (h : UInv st) :
    UInv (admin_update_message st mid raw).2 := by
  simp only [admin_update_message]
  by_cases h0 : clean_text raw = ""
  · rw [if_pos h0]
    exact h
  rw [if_neg h0]
  cases hg : dictGet st.messages mid with
  | none => exact h
  | some msg =>
    refine ⟨?_, h.2.1, h.2.2⟩
    show st.order = (dictSet st.messages mid _).map (·.1)
    rw [map_fst_dictSet]
    exact h.1

/-- States reachable from module load through the service's mutating
request handlers, interleaved in any order. -/
inductive Reachable : AppState → Prop where
  | empty : Reachable AppState.init
  | post (st : AppState) (token rawContent : String) (now nowMs : Int)
      (seeds : List (List Nat)) (h : Reachable st) :
      Reachable (post_message st token rawContent now nowMs seeds).2
  | del (st : AppState) (mid : String) (h : Reachable st) :
      Reachable (delete_message st mid).2
  | adminDel (st : AppState) (mid : String) (h : Reachable st) :
      Reachable (admin_delete_message st mid).2
  | adminUpd (st : AppState) (mid raw : String) (h : Reachable st) :
      Reachable (admin_update_message st mid raw).2
  | adminBatch (st : AppState) (ids : List String) (h : Reachable st) :
      Reachable (admin_batch_delete st ids).2
  | sub (st : AppState) (sid : Nat) (h : Reachable st) :
      Reachable (subscribe st sid)

/-- Every reachable state is well-formed. -/
theorem reachable_uinv (st : AppState) (h : Reachable st) : UInv st := by
  induction h with
  | empty => exact ⟨rfl, List.nodup_nil, by simp [AppState.init]⟩
  | post st token raw now nowMs seeds h ih =>
    exact uinv_post_message st token raw now nowMs seeds ih
  | del st mid h ih => exact uinv_delete_message st mid ih
  | adminDel st mid h ih => exact uinv_delete_message st mid ih
  | adminUpd st mid raw h ih => exact uinv_admin_update st mid raw ih
  | adminBatch st ids h ih => exact uinv_batchDeleteRun (batchClean ids []) st ih
  | sub st sid h ih => exact ⟨ih.1, ih.2.1, ih.2.2⟩

/-- Claim C3 (amended): in every state reachable from the empty store
through the service's request handlers, the order sequence stays within
the capacity `MAX_IN_MEMORY = 500`; the state immediately after startup
recovery, however, is bounded only by `RECOVER_LIMIT = 1000` and can
exceed 500 — eviction trims a single entry per accepted post, not back
to capacity. -/
theorem store_capacity_amended :
    (∀ st : AppState, Reachable st → st.order.length ≤ MAX_IN_MEMORY) ∧
    (∀ log : List DdbRecord, (lifespan_seed log).order.length ≤ RECOVER_LIMIT) := by
  constructor
  · intro st h
    exact (reachable_uinv st h).2.2
  · intro log
    have hR : RECOVER_LIMIT = 1000 := rfl
    have hlen : (lifespan_seed log).order.length = (ddb_recover log).length := by
      rw [lifespan_seed, foldl_seedStep_order]
      simp [AppState.init]
    rw [hlen]
    simp only [ddb_recover, List.length_drop]
    omega

/-- Witness for claim C3's amended statement. -/
theorem store_capacity_amended_witness :
    AppState.init.order.length ≤ MAX_IN_MEMORY ∧
    (lifespan_seed []).order.length ≤ RECOVER_LIMIT :=
  ⟨store_capacity_amended.1 AppState.init Reachable.empty,
   store_capacity_amended.2 []⟩

/-- A durable log of 501 live records with ascending timestamps. -/
def c3Log : List DdbRecord :=
  (List.range 501).map (fun i =>
    { id := toString i, content := "x", ts := (i : Int), deleted := false })

set_option maxRecDepth 20000 in
/-- Counterexample to claim C3 as stated: recovery of a 501-record
durable log seeds the store with 501 entries, exceeding the capacity
`MAX_IN_MEMORY = 500`, because `lifespan` performs no truncation to
store capacity. -/
theorem recovery_seed_exceeds_capacity :
    MAX_IN_MEMORY < (lifespan_seed c3Log).order.length := by decide

/-- Claim C5: `gen_id8` only returns ids absent from the live id set it
resamples against, and consequently in every reachable state — under any
interleaving of posts, deletions, updates and batch deletions — the live
message ids are pairwise distinct. -/
theorem live_ids_pairwise_distinct :
    (∀ (existing : List String) (seeds : List (List Nat)) (mid : String),
      gen_id8 existing seeds = some mid → mid ∉ existing) ∧
    (∀ st : AppState, Reachable st → (st.messages.map (·.1)).Nodup) := by
  constructor
  · exact gen_id8_not_mem
  · intro st h
    have hi := reachable_uinv st h
    rw [← hi.1]
    exact hi.2.1

/-- Witness for claim C5 at a concrete sampler run and concrete states. -/
theorem live_ids_pairwise_distinct_witness :
    ("baaaaaaa" ∉ ["aaaaaaaa"]) ∧
    ((post_message AppState.init "tok" "hi" 0 1 [[1]]).2.messages.map (·.1)).Nodup :=
  ⟨live_ids_pairwise_distinct.1 ["aaaaaaaa"] [[1]] "baaaaaaa" (by decide),
   live_ids_pairwise_distinct.2 _
     (Reachable.post AppState.init "tok" "hi" 0 1 [[1]] Reachable.empty)⟩

end Danmaku
